import Mathlib

set_option maxRecDepth 40000

/-!
Verification development for the adaptive chunk-translation pipeline of the
`novels` repository (`translate.py`, with the variant pipeline in
`src/utils/translate.py`).

Embedding conventions:

* A document's text is manipulated by the source exclusively through
  `content.split('\n')` and `'\n'.join(lines)`, so a chunk is represented by
  its list of lines (`List String`); `joinLines` is `'\n'.join` and
  `splitLines` is `.split('\n')` (note `''.split('\n') == ['']`, so the empty
  document corresponds to the line list `[""]`).  Lines produced by splitting
  contain no newline character, for which `splitLines (joinLines ls) = ls`.
* The translation provider (`requests.post` plus response decoding in
  `translate_chunk`) is an oracle `tr : String → ℕ → TrOut` mapping the
  submitted chunk text and the current `retry_count` to an outcome: a returned
  text, a size/token-limit error, or a transient transport error.  The source
  code's `except Exception` branch treats the two error outcomes identically.
* Python `time.sleep` is dropped (no observable effect), and recursion in
  `process_chunk` is made total with an explicit `fuel` parameter: `fuel = 0`
  yields the distinguished `PRes.timeout` result, so genuine termination of
  the source recursion is the statement that enough fuel avoids `timeout`.
* Machine integers do not occur: all Python numbers here are small `int`s
  (arbitrary precision), modelled by `Nat`/`Int`.  The single float expression
  `int(0.1 * n)` equals `n / 10` in `Nat` (see `validate_completion`).
-/

/-- Constant `MAX_RETRIES = 5` from `translate.py`. -/
def MAX_RETRIES : ℕ := 5

/-- Constant `RETRY_DELAY = 5` from `translate.py` (the sleep between retries;
it has no observable effect in this embedding). -/
def RETRY_DELAY : ℕ := 5

/-- Constant `MAX_CHUNK_SIZE = 500` from `translate.py`: the character-length
floor below which a chunk is never bisected. -/
def MAX_CHUNK_SIZE : ℕ := 500

/-- Constant `INITIAL_CHUNK_LINES = 50` from `translate.py`: the line-group
size of the initial split. -/
def INITIAL_CHUNK_LINES : ℕ := 50

/-- Python `'\n'.join(lines)`. -/
def joinLines : List String → String
  | [] => ""
  | [l] => l
  | l :: ls => l ++ "\n" ++ joinLines ls

/-- Helper for `splitLines`: splits a character list at a separator character,
keeping empty fields, as Python `str.split` does for a one-character
separator. -/
def splitCharsAux (sep : Char) : List Char → List Char → List (List Char)
  | [], acc => [acc.reverse]
  | c :: cs, acc =>
    if c == sep then acc.reverse :: splitCharsAux sep cs []
    else splitCharsAux sep cs (c :: acc)

/-- Python `s.split(sep)` for a one-character separator `sep`. -/
def splitChar (sep : Char) (s : String) : List String :=
  (splitCharsAux sep s.toList []).map String.mk

/-- Python `s.split('\n')`.  In particular `splitLines "" = [""]`. -/
def splitLines (s : String) : List String := splitChar '\n' s

/-- Character length of a chunk given by its lines: `len(chunk)` in
`process_chunk`, where `chunk` is the joined text. -/
def chunkLen (chunk : List String) : ℕ := (joinLines chunk).length

/-- Helper for `groupLines`, recursing on an explicit bound (the list length);
for `0 < n` the bound is never exhausted, mirroring
`range(0, len(lines), n)`. -/
def groupLinesAux (n : ℕ) : ℕ → List String → List (List String)
  | 0, _ => []
  | _ + 1, [] => []
  | bound + 1, x :: xs => (x :: xs).take n :: groupLinesAux n bound ((x :: xs).drop n)

/-- Consecutive groups of `n` lines, the last possibly shorter:
`[lines[i:i+n] for i in range(0, len(lines), n)]` (for `0 < n`). -/
def groupLines (n : ℕ) (ls : List String) : List (List String) :=
  groupLinesAux n ls.length ls

/-- Model of `TranslationProcessor.split_content` (translate.py lines 51-58),
parametrised by the group size (the source reads the module constant
`INITIAL_CHUNK_LINES`): the document's lines are cut into consecutive groups
of `n` lines, and the `i`-th group (1-based) receives path `[i]`, via
`[i // INITIAL_CHUNK_LINES + 1]` at line offset `i`. -/
def split_content (n : ℕ) (ls : List String) : List (List String × List ℕ) :=
  (List.enumFrom 1 (groupLines n ls)).map (fun p => (p.2, [p.1]))

/-- Model of `TranslationProcessor.split_chunk` (translate.py lines 60-66):
bisect the chunk's lines at `len(lines) // 2`; the left half gets path
`indices + [1]`, the right half `indices + [2]`. -/
def split_chunk (chunk : List String) (indices : List ℕ) :
    List (List String × List ℕ) :=
  let mid := chunk.length / 2
  [(chunk.take mid, indices ++ [1]), (chunk.drop mid, indices ++ [2])]

/-- Outcome of one provider attempt, as distinguished by the external
service: a returned text, a size/token-limit error, or a transient
transport error.  `translate_chunk` in `translate.py` catches every raised
error in the same `except Exception` branch, so the two error outcomes are
handled identically there. -/
inductive TrOut where
  | ok (text : String)
  | errSize
  | errTransient
deriving DecidableEq

/-- Provider oracle: submitted text and current `retry_count` to outcome. -/
abbrev Provider := String → ℕ → TrOut

/-- Python `bool(translated.strip())`: the text contains some
non-whitespace character. -/
def hasNonWS (s : String) : Bool := s.toList.any (fun c => !c.isWhitespace)

/-- Recursion core of `TranslationProcessor.translate_chunk` (translate.py
lines 104-128), recursing on `remaining = MAX_RETRIES + 1 - retry_count`
(the source recursion `translate_chunk(chunk, retry_count + 1)` is guarded by
`retry_count < MAX_RETRIES`, so `remaining` never reaches `0` when started at
`MAX_RETRIES + 1`).  Besides the source's `Optional[str]` result it returns
the trace of `(submitted text, retry_count)` provider calls made.  An `ok`
response with blank text raises `ValueError` in the source and therefore
lands in the same retry branch as the two error outcomes. -/
def translate_chunkAux (tr : Provider) (chunk : String) :
    ℕ → ℕ → Option String × List (String × ℕ)
  | _, 0 => (none, [])
  | retry_count, remaining + 1 =>
    match tr chunk retry_count with
    | .ok t =>
      if hasNonWS t then (some t, [(chunk, retry_count)])
      else if retry_count < MAX_RETRIES then
        let r := translate_chunkAux tr chunk (retry_count + 1) remaining
        (r.1, (chunk, retry_count) :: r.2)
      else (none, [(chunk, retry_count)])
    | _ =>
      if retry_count < MAX_RETRIES then
        let r := translate_chunkAux tr chunk (retry_count + 1) remaining
        (r.1, (chunk, retry_count) :: r.2)
      else (none, [(chunk, retry_count)])

/-- Model of `TranslationProcessor.translate_chunk` (translate.py lines
68-128) from the initial call `translate_chunk(chunk)` at `retry_count = 0`.
`cfgOk` stands for `all([llm_model, llm_prompt, llm_token, llm_url])`: with
missing configuration the source returns `None` before any provider call. -/
def translate_chunk (cfgOk : Bool) (tr : Provider) (chunk : String) :
    Option String × List (String × ℕ) :=
  if cfgOk then translate_chunkAux tr chunk 0 (MAX_RETRIES + 1) else (none, [])

/-- Result of `process_chunk`/the `process_file` loop.  `ok outs splits`
carries the `successful_chunks` entries appended during a successful call
(in append order) and, as a ghost trace, the list of `(indices, len(chunk))`
at which a bisection happened; `failed` is the source's `False`; `timeout`
is fuel exhaustion (never produced by sufficient fuel, see the termination
theorems). -/
inductive PRes where
  | timeout (splits : List (List ℕ × ℕ))
  | failed (splits : List (List ℕ × ℕ))
  | ok (outs : List (List ℕ × String)) (splits : List (List ℕ × ℕ))
deriving DecidableEq

/-- Model of `TranslationProcessor.process_chunk` (translate.py lines
130-144): attempt a full translation; on success record
`(indices, translated)`; on failure, fail terminally below the
`MAX_CHUNK_SIZE` character floor, otherwise process the two sub-chunks of
`split_chunk` in order, returning `False` as soon as one fails.  The
recursion over the two sub-chunks `(chunk.take mid, indices ++ [1])`,
`(chunk.drop mid, indices ++ [2])` is the source's `for` loop over
`split_chunk chunk indices`, unrolled (see `split_chunk_eq`).  `mid` is
`len(chunk.split('\n')) // 2`, which for the line-list representation is
`chunk.length / 2`. -/
def process_chunk (cfgOk : Bool) (tr : Provider) :
    ℕ → List String → List ℕ → PRes
  | 0, _, _ => .timeout []
  | fuel + 1, chunk, indices =>
    match (translate_chunk cfgOk tr (joinLines chunk)).1 with
    | some t => .ok [(indices, t)] []
    | none =>
      if chunkLen chunk < MAX_CHUNK_SIZE then .failed []
      else
        let mid := chunk.length / 2
        let here := (indices, chunkLen chunk)
        match process_chunk cfgOk tr fuel (chunk.take mid) (indices ++ [1]) with
        | .timeout s => .timeout (here :: s)
        | .failed s => .failed (here :: s)
        | .ok o₁ s₁ =>
          match process_chunk cfgOk tr fuel (chunk.drop mid) (indices ++ [2]) with
          | .timeout s₂ => .timeout (here :: (s₁ ++ s₂))
          | .failed s₂ => .failed (here :: (s₁ ++ s₂))
          | .ok o₂ s₂ => .ok (o₁ ++ o₂) (here :: (s₁ ++ s₂))

/-- The chunk loop of `TranslationProcessor.process_file` (translate.py lines
202-205): process the chunks in order, aborting on the first failure. -/
def process_chunks (cfgOk : Bool) (tr : Provider) (fuel : ℕ) :
    List (List String × List ℕ) → PRes
  | [] => .ok [] []
  | (c, idx) :: rest =>
    match process_chunk cfgOk tr fuel c idx with
    | .timeout s => .timeout s
    | .failed s => .failed s
    | .ok o s =>
      match process_chunks cfgOk tr fuel rest with
      | .timeout s' => .timeout (s ++ s')
      | .failed s' => .failed (s ++ s')
      | .ok o' s' => .ok (o ++ o') (s ++ s')

/-- Python list comparison `x <= y` on paths (lexicographic; a strict prefix
sorts before its extensions), the key order of
`sorted(self.successful_chunks, key=lambda x: x[0])`. -/
def pathLe : List ℕ → List ℕ → Bool
  | _ :: _, [] => false
  | [], _ => true
  | x :: xs, y :: ys => x < y || (x == y && pathLe xs ys)

/-- Python list comparison `x < y` on paths. -/
def pathLt : List ℕ → List ℕ → Bool
  | _, [] => false
  | [], _ :: _ => true
  | x :: xs, y :: ys => x < y || (x == y && pathLt xs ys)

/-- Insertion step of `sortOuts`. -/
def insertOut (x : List ℕ × String) :
    List (List ℕ × String) → List (List ℕ × String)
  | [] => [x]
  | y :: ys => if pathLe x.1 y.1 then x :: y :: ys else y :: insertOut x ys

/-- Model of `sorted(self.successful_chunks, key=lambda x: x[0])`: a stable
sort by the path key.  Insertion sort is stable, and on the distinct keys
produced by the pipeline every stable (indeed every) sort agrees with
Python's `sorted`. -/
def sortOuts : List (List ℕ × String) → List (List ℕ × String)
  | [] => []
  | x :: xs => insertOut x (sortOuts xs)

/-- Reassembly used in `validate_completion` (line 161) and `process_file`
(lines 214, 218): sort the successful chunks by path and join their
translated texts with newlines. -/
def reassemble (outs : List (List ℕ × String)) : String :=
  joinLines ((sortOuts outs).map Prod.snd)

/-- Count of non-empty lines,
`sum(1 for line in content.split('\n') if line.strip())`. -/
def nonEmptyLineCount (s : String) : ℕ :=
  ((splitLines s).filter (fun line => hasNonWS line)).length

/-- Numeric core of `TranslationProcessor.validate_completion` (translate.py
lines 169-194), over the two non-empty-line counts and the two character
counts.  Python computes `allowed_line_diff = max(1, int(0.1 *
original_non_empty_lines))` with float arithmetic; since the double nearest
to `0.1` exceeds `1/10`, `0.1 * n` never falls below the exact value and
never reaches the next multiple of `1/10`, so `int(0.1 * n) = n / 10`
(floor) for every `n : ℕ`, and likewise for `allowed_char_diff`. -/
def validate_counts (original_non_empty_lines translated_non_empty_lines
    original_char_count translated_char_count : ℕ) : Bool :=
  let line_diff :=
    ((translated_non_empty_lines : ℤ) - (original_non_empty_lines : ℤ)).natAbs
  let line_diff_within_tolerance :=
    if original_non_empty_lines ≠ translated_non_empty_lines then
      let allowed_line_diff := max 1 (original_non_empty_lines / 10)
      !(allowed_line_diff < line_diff && 15 < line_diff)
    else true
  let char_diff_within_tolerance :=
    if !line_diff_within_tolerance then
      if original_char_count ≠ translated_char_count then
        let allowed_char_diff := original_char_count / 10
        let char_diff :=
          ((translated_char_count : ℤ) - (original_char_count : ℤ)).natAbs
        !(allowed_char_diff < char_diff)
      else true
    else true
  line_diff_within_tolerance || char_diff_within_tolerance

/-- Model of `TranslationProcessor.validate_completion` (translate.py lines
159-194) applied to the original content and the reassembled translated
content. -/
def validate_completion (original translated : String) : Bool :=
  validate_counts (nonEmptyLineCount original) (nonEmptyLineCount translated)
    original.length translated.length

/-- Model of the pipeline part of `TranslationProcessor.process_file`
(translate.py lines 196-218): initial split, fail-fast chunk processing,
then validation of the reassembled text; returns the reassembled translated
text on success.  Reading the JSON record and rendering/writing the HTML
template are outside the pipeline (the document is given by its line list
`contentLines`, i.e. `data['content'].split('\n')`). -/
def process_file (cfgOk : Bool) (tr : Provider) (fuel : ℕ)
    (contentLines : List String) : Option String :=
  match process_chunks cfgOk tr fuel (split_content INITIAL_CHUNK_LINES contentLines) with
  | .ok outs _ =>
    let translated := reassemble outs
    if validate_completion (joinLines contentLines) translated then some translated
    else none
  | _ => none

/-- Result of one `self.llm.run(...)` call in `src/utils/translate.py`:
either a returned pair `(html_rtn, translated_text)` or a raised
exception with its message (`Llm.run` re-raises every error). -/
inductive LlmRet where
  | ret (html : Option String) (text : Option String)
  | exn (msg : String)

/-- Python `pat in hay` on strings: `pat` occurs as a substring of `hay`. -/
def containsStr (hay pat : String) : Bool :=
  hay.toList.tails.any (fun t => pat.toList.isPrefixOf t)

/-- Python `s.lower()` (ASCII case folding suffices for the checked
error-message literals). -/
def lowerStr (s : String) : String := String.mk (s.toList.map Char.toLower)

/-- Model of the helper `call_llm` inside `Translate.translate_content`
(`src/utils/translate.py` lines 191-222).  Branches, in source order:

1. `html_rtn is None and translated_text is not None` returns
   `(None, translated_text)` (success) immediately;
2. otherwise a non-`None` text shorter than 200 characters for an input
   longer than 200 characters is classified `CONNECTION_ERROR`;
3. otherwise the `html_rtn` error indicator is scanned for
   `TOKEN_EXCEEDED` / `HTML error 500` / `HTML error 504`; when `html_rtn`
   is `None` here (so `translated_text` is `None` too), Python's
   `"TOKEN_EXCEEDED" in None` raises `TypeError`, which the surrounding
   `except` turns into `OTHER_ERROR`;
4. otherwise `(None, translated_text)` is returned unchanged;
5. a raised exception mentioning `504 Server Error:` (case-insensitively)
   is classified `TOKEN_EXCEEDED`, any other exception `OTHER_ERROR`. -/
def call_llm (run : String → LlmRet) (text_to_translate : String) :
    Option String × Option String :=
  match run text_to_translate with
  | .ret none (some t) => (none, some t)
  | .ret html txt =>
    if (match txt with
        | some t => decide (t.length < 200) && decide (200 < text_to_translate.length)
        | none => false) then
      (some "CONNECTION_ERROR", none)
    else
      match html with
      | some h =>
        if containsStr h "TOKEN_EXCEEDED" || containsStr h "HTML error 500" ||
            containsStr h "HTML error 504" then
          (some "TOKEN_EXCEEDED", none)
        else (none, txt)
      | none => (some "OTHER_ERROR", none)
  | .exn e =>
    if containsStr (lowerStr e) (lowerStr "504 Server Error:") then
      (some "TOKEN_EXCEEDED", none)
    else (some "OTHER_ERROR", none)

/-- Python `pathlib.Path(p).stem`: the final path component without its last
suffix (a leading dot, as in `.bashrc`, does not start a suffix). -/
def stemOf (p : String) : String :=
  let base := (splitChar '/' p).getLastD ""
  let cs := base.toList
  match cs.reverse.findIdx? (fun c => c == '.') with
  | none => base
  | some k =>
    let pos := cs.length - 1 - k
    if pos = 0 then base else String.mk (cs.take pos)

/-- Python `s.split('-')`. -/
def splitDash (s : String) : List String := splitChar '-' s

/-- Model of `TranslationProcessor.parse_filename` (translate.py lines
34-36): `Path(filename).stem.split('-')`, returning components
`parts[0], parts[1], parts[2]`.  With fewer than three components the
subscription raises `IndexError` (modelled by `none`), so constructing
`TranslationProcessor` fails in `__init__` before any file or provider
access. -/
def parse_filename (filename : String) : Option (String × String × String) :=
  let parts := splitDash (stemOf filename)
  match parts with
  | p0 :: p1 :: p2 :: _ => some (p0, p1, p2)
  | _ => none

/-- Python `int(s)` restricted to the non-negative decimal numerals that
occur as the index component of input filenames; any other string raises
`ValueError` (modelled by `none`). -/
def strToNat? (s : String) : Option ℕ :=
  if s.toList ≠ [] ∧ s.toList.all (fun c => c.isDigit) then
    some (s.toList.foldl (fun n c => 10 * n + (c.toNat - '0'.toNat)) 0)
  else none

/-- Python `f"{n:04d}"` for a non-negative `n`. -/
def pad4 (n : ℕ) : String :=
  let s := toString n
  String.mk (List.replicate (4 - s.length) '0') ++ s

/-- Name of the output file written by `process_file` (translate.py line
225): `f"{int(self.index):04d}.html"`, where `self.index` is the third
`'-'`-component of the input filename's stem.  The `index` field of the
input JSON record (`data_index`) is available to `process_file` but is not
used for the filename. -/
def generated_filename (filename : String) (data_index : ℤ) : Option String :=
  match parse_filename filename with
  | some (_, _, idx) => (strToNat? idx).map (fun n => pad4 n ++ ".html")
  | none => none

/-- Tolerance formula stated by the specification for the validator's
line-count check, `max(1, round(0.10 * originalNonEmptyLines))`, with exact
rational arithmetic and rounding; to be compared with the source's
`max(1, int(0.1 * original_non_empty_lines))`. -/
def specLineTolerance (o : ℕ) : ℤ := max 1 (round ((1 : ℚ) / 10 * o))

/-- Ghost split trace of a `process_chunk`/`process_chunks` result: the
`(indices, len(chunk))` pairs at which a bisection happened. -/
def splitsOf : PRes → List (List ℕ × ℕ)
  | .timeout s => s
  | .failed s => s
  | .ok _ s => s

/-- Result discriminator: the run ran out of fuel (the source recursion did
not return within the given depth). -/
def isTimeout : PRes → Bool
  | .timeout _ => true
  | _ => false

/-- Provider behaviours realising the identity translation of the
specification's ordering invariant: every successful attempt returns the
submitted text unchanged (attempts may still fail, producing arbitrary
split trees). -/
def identityLike (tr : Provider) : Prop :=
  ∀ s n t, tr s n = TrOut.ok t → t = s

/-- Unfolding of `split_chunk`: exactly the two sub-chunks processed by the
recursion in `process_chunk`. -/
theorem split_chunk_eq (chunk : List String) (indices : List ℕ) :
    split_chunk chunk indices =
      [(chunk.take (chunk.length / 2), indices ++ [1]),
       (chunk.drop (chunk.length / 2), indices ++ [2])] := rfl

/-- Joining a concatenation of two non-empty line blocks inserts exactly one
newline between the blocks. -/
theorem joinLines_append (A B : List String) (hA : A ≠ []) (hB : B ≠ []) :
    joinLines (A ++ B) = joinLines A ++ "\n" ++ joinLines B := by
  induction A with
  | nil => exact absurd rfl hA
  | cons x xs ih =>
    cases xs with
    | nil =>
      cases B with
      | nil => exact absurd rfl hB
      | cons b bs => simp [joinLines]
    | cons y ys =>
      have h₂ : joinLines ((y :: ys) ++ B) = joinLines (y :: ys) ++ "\n" ++ joinLines B :=
        ih (by simp)
      show joinLines (x :: ((y :: ys) ++ B)) = _
      cases h : (y :: ys) ++ B with
      | nil => simp at h
      | cons z zs =>
        rw [show joinLines (x :: z :: zs) = x ++ "\n" ++ joinLines (z :: zs) from rfl,
          ← h, h₂]
        rw [show joinLines (x :: y :: ys) = x ++ "\n" ++ joinLines (y :: ys) from rfl]
        simp [String.append_assoc]

/-- Grouping with a positive group size partitions the lines exactly. -/
theorem groupLinesAux_flatten (n : ℕ) (hn : 0 < n) :
    ∀ bound ls, ls.length ≤ bound → (groupLinesAux n bound ls).flatten = ls := by
  intro bound
  induction bound with
  | zero =>
    intro ls h
    have : ls = [] := List.eq_nil_of_length_eq_zero (Nat.le_zero.mp h)
    subst this; rfl
  | succ b ih =>
    intro ls h
    cases ls with
    | nil => rfl
    | cons x xs =>
      have hlen : ((x :: xs).drop n).length ≤ b := by
        have := List.length_drop n (x :: xs)
        simp at h ⊢
        omega
      simp only [groupLinesAux, List.flatten_cons, ih _ hlen, List.take_append_drop]

/-- Every group produced by a positive group size is non-empty. -/
theorem groupLinesAux_ne_nil (n : ℕ) (hn : 0 < n) :
    ∀ bound ls g, g ∈ groupLinesAux n bound ls → g ≠ [] := by
  intro bound
  induction bound with
  | zero => intro ls g hg; simp [groupLinesAux] at hg
  | succ b ih =>
    intro ls g hg
    cases ls with
    | nil => simp [groupLinesAux] at hg
    | cons x xs =>
      simp only [groupLinesAux, List.mem_cons] at hg
      rcases hg with h | h
      · subst h
        cases n with
        | zero => omega
        | succ m => simp [List.take]
      · exact ih _ _ h

/-- Paths that diverge after a common prefix compare by the first differing
position, for Python list comparison. -/
theorem pathLt_append_lt (pre : List ℕ) (x y : ℕ) (s t : List ℕ) (h : x < y) :
    pathLt (pre ++ x :: s) (pre ++ y :: t) = true := by
  induction pre with
  | nil => simp [pathLt, h]
  | cons a as ih => simp [pathLt, ih]

/-- Strict path order implies weak path order. -/
theorem pathLe_of_pathLt : ∀ p q, pathLt p q = true → pathLe p q = true := by
  intro p
  induction p with
  | nil => intro q _; simp [pathLe]
  | cons a as ih =>
    intro q h
    cases q with
    | nil => simp [pathLt] at h
    | cons b bs =>
      simp only [pathLt, Bool.or_eq_true, Bool.and_eq_true] at h
      simp only [pathLe, Bool.or_eq_true, Bool.and_eq_true]
      rcases h with h | ⟨h₁, h₂⟩
      · exact Or.inl h
      · exact Or.inr ⟨h₁, ih bs h₂⟩

/-- Inserting below the head of a list it already precedes is the identity
head extension. -/
theorem insertOut_of_le (x : List ℕ × String) (l : List (List ℕ × String))
    (h : ∀ y ∈ l, pathLe x.1 y.1 = true) : insertOut x l = x :: l := by
  cases l with
  | nil => rfl
  | cons y ys => simp [insertOut, h y (by simp)]

/-- Sorting a list whose keys are already in weak order returns it
unchanged (so Python's stable `sorted` is the identity there). -/
theorem sortOuts_of_sorted : ∀ l : List (List ℕ × String),
    l.Pairwise (fun a b => pathLe a.1 b.1 = true) → sortOuts l = l := by
  intro l
  induction l with
  | nil => intro _; rfl
  | cons x xs ih =>
    intro h
    rcases List.pairwise_cons.mp h with ⟨hx, hxs⟩
    rw [show sortOuts (x :: xs) = insertOut x (sortOuts xs) from rfl, ih hxs,
      insertOut_of_le x xs hx]

/-- Attempt outcome that lands in the retry branch of `translate_chunk`: an
error, or a returned text that is blank (the source raises `ValueError` on
blank text). -/
def attemptFails : TrOut → Bool
  | .ok t => !hasNonWS t
  | .errSize => true
  | .errTransient => true

/-- A successful `translate_chunk` result comes from some provider attempt
returning exactly that text, and the text is non-blank. -/
theorem translate_chunkAux_ok (tr : Provider) (chunk : String) :
    ∀ rem rc u, (translate_chunkAux tr chunk rc rem).1 = some u →
      ∃ n, tr chunk n = TrOut.ok u ∧ hasNonWS u = true := by
  intro rem
  induction rem with
  | zero => intro rc u h; simp [translate_chunkAux] at h
  | succ k ih =>
    intro rc u h
    simp only [translate_chunkAux] at h
    cases htr : tr chunk rc with
    | ok t =>
      rw [htr] at h
      dsimp only at h
      by_cases hw : hasNonWS t
      · rw [if_pos hw] at h
        simp at h
        exact ⟨rc, by rw [htr, h], h ▸ hw⟩
      · rw [if_neg hw] at h
        split at h
        · exact ih (rc + 1) u h
        · simp at h
    | errSize =>
      rw [htr] at h
      dsimp only at h
      split at h
      · exact ih (rc + 1) u h
      · simp at h
    | errTransient =>
      rw [htr] at h
      dsimp only at h
      split at h
      · exact ih (rc + 1) u h
      · simp at h

/-- Projection of `translate_chunkAux_ok` to `translate_chunk`. -/
theorem translate_chunk_ok (cfgOk : Bool) (tr : Provider) (chunk u : String)
    (h : (translate_chunk cfgOk tr chunk).1 = some u) :
    ∃ n, tr chunk n = TrOut.ok u ∧ hasNonWS u = true := by
  by_cases hc : cfgOk = true
  · subst hc
    simp only [translate_chunk, if_pos rfl] at h
    exact translate_chunkAux_ok tr chunk _ 0 u h
  · simp [translate_chunk, hc] at h

/-- When every attempt on a text fails, `translate_chunk` returns `None`. -/
theorem translate_chunkAux_allFail (tr : Provider) (chunk : String)
    (hf : ∀ n, attemptFails (tr chunk n) = true) :
    ∀ rem rc, (translate_chunkAux tr chunk rc rem).1 = none := by
  intro rem
  induction rem with
  | zero => intro rc; simp [translate_chunkAux]
  | succ k ih =>
    intro rc
    have hfa := hf rc
    simp only [translate_chunkAux]
    cases htr : tr chunk rc with
    | ok t =>
      rw [htr] at hfa
      simp only [attemptFails, Bool.not_eq_true'] at hfa
      dsimp only
      rw [if_neg (by simp [hfa])]
      split
      · simpa using ih (rc + 1)
      · rfl
    | errSize =>
      dsimp only
      split
      · simpa using ih (rc + 1)
      · rfl
    | errTransient =>
      dsimp only
      split
      · simpa using ih (rc + 1)
      · rfl

/-- Peeling the first element off a mapped range. -/
theorem range_map_cons {α : Type} (g : ℕ → α) (m : ℕ) :
    (List.range (m + 1)).map g = g 0 :: (List.range m).map (fun j => g (j + 1)) := by
  rw [List.range_succ_eq_map, List.map_cons, List.map_map]
  simp [Function.comp_def]

/-- When every attempt on a text fails, the source retries the very same
text at `retry_count = 0, 1, ..., MAX_RETRIES` and then gives up: the full
call trace of `translate_chunk`. -/
theorem translate_chunkAux_allFail_trace (tr : Provider) (chunk : String)
    (hf : ∀ n, attemptFails (tr chunk n) = true) :
    ∀ rem rc, rc + rem = MAX_RETRIES + 1 →
      translate_chunkAux tr chunk rc rem =
        (none, (List.range rem).map (fun i => (chunk, rc + i))) := by
  intro rem
  induction rem with
  | zero => intro rc _; simp [translate_chunkAux]
  | succ k ih =>
    intro rc hrc
    have hstep :
        (if rc < MAX_RETRIES then
          ((translate_chunkAux tr chunk (rc + 1) k).1,
            (chunk, rc) :: (translate_chunkAux tr chunk (rc + 1) k).2)
        else (none, [(chunk, rc)])) =
        (none, (List.range (k + 1)).map (fun i => (chunk, rc + i))) := by
      cases k with
      | zero =>
        have hrc5 : rc = MAX_RETRIES := by omega
        rw [if_neg (by omega)]
        simp [List.range_succ, hrc5]
      | succ m =>
        have hlt : rc < MAX_RETRIES := by simp [MAX_RETRIES] at hrc ⊢; omega
        rw [if_pos hlt, ih (rc + 1) (by omega)]
        refine congrArg (Prod.mk none) ?_
        rw [range_map_cons (fun i => (chunk, rc + i)) (m + 1)]
        refine congrArg₂ List.cons (by simp) (List.map_congr_left ?_)
        intro a _
        exact congrArg (Prod.mk chunk) (by omega)
    have hfa := hf rc
    simp only [translate_chunkAux]
    cases htr : tr chunk rc with
    | ok t =>
      rw [htr] at hfa
      simp only [attemptFails, Bool.not_eq_true'] at hfa
      dsimp only
      rw [if_neg (by simp [hfa])]
      exact hstep
    | errSize => exact hstep
    | errTransient => exact hstep

/-- Trace form of `translate_chunk` under persistent failure: the chunk is
submitted verbatim `MAX_RETRIES + 1 = 6` times, then `None` is returned. -/
theorem translate_chunk_allFail (tr : Provider) (chunk : String)
    (hf : ∀ n, attemptFails (tr chunk n) = true) :
    translate_chunk true tr chunk =
      (none, (List.range (MAX_RETRIES + 1)).map (fun i => (chunk, i))) := by
  simp only [translate_chunk, if_pos]
  simpa using translate_chunkAux_allFail_trace tr chunk hf (MAX_RETRIES + 1) 0 (by omega)

/-- Unfolding of `process_chunk` when the full translation succeeds. -/
theorem process_chunk_translate_ok (cfgOk : Bool) (tr : Provider) (fuel : ℕ)
    (c : List String) (idx : List ℕ) (t : String)
    (h : (translate_chunk cfgOk tr (joinLines c)).1 = some t) :
    process_chunk cfgOk tr (fuel + 1) c idx = .ok [(idx, t)] [] := by
  simp only [process_chunk, h]

/-- Unfolding of `process_chunk` on a failed translation below the character
floor: terminal failure, no bisection. -/
theorem process_chunk_floor_failed (cfgOk : Bool) (tr : Provider) (fuel : ℕ)
    (c : List String) (idx : List ℕ)
    (h : (translate_chunk cfgOk tr (joinLines c)).1 = none)
    (hlen : chunkLen c < MAX_CHUNK_SIZE) :
    process_chunk cfgOk tr (fuel + 1) c idx = .failed [] := by
  simp only [process_chunk, h, if_pos hlen]

/-- Unfolding of `process_chunk` on a failed translation at or above the
character floor: the chunk is bisected, recorded in the split trace. -/
theorem process_chunk_bisect_mem (cfgOk : Bool) (tr : Provider) (fuel : ℕ)
    (c : List String) (idx : List ℕ)
    (h : (translate_chunk cfgOk tr (joinLines c)).1 = none)
    (hlen : ¬ chunkLen c < MAX_CHUNK_SIZE) :
    (idx, chunkLen c) ∈ splitsOf (process_chunk cfgOk tr (fuel + 1) c idx) := by
  simp only [process_chunk, h, if_neg hlen]
  cases hL : process_chunk cfgOk tr fuel (c.take (c.length / 2)) (idx ++ [1]) with
  | timeout s => simp [splitsOf]
  | failed s => simp [splitsOf]
  | ok o₁ s₁ =>
    cases hR : process_chunk cfgOk tr fuel (c.drop (c.length / 2)) (idx ++ [2]) with
    | timeout s₂ => simp [splitsOf]
    | failed s₂ => simp [splitsOf]
    | ok o₂ s₂ => simp [splitsOf]

/-- Invariant of the split trace: a bisection is only ever recorded for a
chunk whose character length is at least `MAX_CHUNK_SIZE`. -/
theorem splits_ge_floor (cfgOk : Bool) (tr : Provider) :
    ∀ fuel c idx, ∀ e ∈ splitsOf (process_chunk cfgOk tr fuel c idx),
      MAX_CHUNK_SIZE ≤ e.2 := by
  intro fuel
  induction fuel with
  | zero => intro c idx e he; simp [process_chunk, splitsOf] at he
  | succ k ih =>
    intro c idx e he
    rw [show process_chunk cfgOk tr (k + 1) c idx =
      (match (translate_chunk cfgOk tr (joinLines c)).1 with
      | some t => .ok [(idx, t)] []
      | none =>
        if chunkLen c < MAX_CHUNK_SIZE then .failed []
        else
          let mid := c.length / 2
          let here := (idx, chunkLen c)
          match process_chunk cfgOk tr k (c.take mid) (idx ++ [1]) with
          | .timeout s => .timeout (here :: s)
          | .failed s => .failed (here :: s)
          | .ok o₁ s₁ =>
            match process_chunk cfgOk tr k (c.drop mid) (idx ++ [2]) with
            | .timeout s₂ => .timeout (here :: (s₁ ++ s₂))
            | .failed s₂ => .failed (here :: (s₁ ++ s₂))
            | .ok o₂ s₂ => .ok (o₁ ++ o₂) (here :: (s₁ ++ s₂))) from rfl] at he
    cases htr : (translate_chunk cfgOk tr (joinLines c)).1 with
    | some t => rw [htr] at he; simp [splitsOf] at he
    | none =>
      rw [htr] at he
      dsimp only at he
      by_cases hlen : chunkLen c < MAX_CHUNK_SIZE
      · rw [if_pos hlen] at he; simp [splitsOf] at he
      · rw [if_neg hlen] at he
        have hfloor : MAX_CHUNK_SIZE ≤ chunkLen c := Nat.le_of_not_lt hlen
        cases hL : process_chunk cfgOk tr k (c.take (c.length / 2)) (idx ++ [1]) with
        | timeout s =>
          rw [hL] at he
          simp only [splitsOf, List.mem_cons] at he
          rcases he with he | he
          · subst he; exact hfloor
          · exact ih _ _ e (by rw [hL]; simpa [splitsOf] using he)
        | failed s =>
          rw [hL] at he
          simp only [splitsOf, List.mem_cons] at he
          rcases he with he | he
          · subst he; exact hfloor
          · exact ih _ _ e (by rw [hL]; simpa [splitsOf] using he)
        | ok o₁ s₁ =>
          rw [hL] at he
          cases hR : process_chunk cfgOk tr k (c.drop (c.length / 2)) (idx ++ [2]) with
          | timeout s₂ =>
            rw [hR] at he
            simp only [splitsOf, List.mem_cons, List.mem_append] at he
            rcases he with he | he | he
            · subst he; exact hfloor
            · exact ih _ _ e (by rw [hL]; simpa [splitsOf] using he)
            · exact ih _ _ e (by rw [hR]; simpa [splitsOf] using he)
          | failed s₂ =>
            rw [hR] at he
            simp only [splitsOf, List.mem_cons, List.mem_append] at he
            rcases he with he | he | he
            · subst he; exact hfloor
            · exact ih _ _ e (by rw [hL]; simpa [splitsOf] using he)
            · exact ih _ _ e (by rw [hR]; simpa [splitsOf] using he)
          | ok o₂ s₂ =>
            rw [hR] at he
            simp only [splitsOf, List.mem_cons, List.mem_append] at he
            rcases he with he | he | he
            · subst he; exact hfloor
            · exact ih _ _ e (by rw [hL]; simpa [splitsOf] using he)
            · exact ih _ _ e (by rw [hR]; simpa [splitsOf] using he)

/-- Fail-fast at the document level: once the chunk loop has failed on some
prefix of the chunk list, any further chunks are never attempted — the
result is literally that of the prefix alone. -/
theorem process_chunks_failed_append (cfgOk : Bool) (tr : Provider) (fuel : ℕ) :
    ∀ l₁ l₂ s, process_chunks cfgOk tr fuel l₁ = .failed s →
      process_chunks cfgOk tr fuel (l₁ ++ l₂) = .failed s := by
  intro l₁
  induction l₁ with
  | nil => intro l₂ s h; simp [process_chunks] at h
  | cons p rest ih =>
    intro l₂ s h
    obtain ⟨c, idx⟩ := p
    simp only [process_chunks, List.cons_append] at h ⊢
    cases hc : process_chunk cfgOk tr fuel c idx with
    | timeout s' => rw [hc] at h; simp at h
    | failed s' => rw [hc] at h; exact h
    | ok o s' =>
      rw [hc] at h
      dsimp only at h ⊢
      cases hr : process_chunks cfgOk tr fuel rest with
      | timeout s'' => rw [hr] at h; simp at h
      | failed s'' =>
        rw [hr] at h
        rw [show process_chunks cfgOk tr fuel (rest.append l₂) = PRes.failed s'' from
          ih l₂ s'' hr]
        exact h
      | ok o'' s'' => rw [hr] at h; simp at h

/-- One-step unfolding of `process_chunk` at positive fuel. -/
theorem process_chunk_succ (cfgOk : Bool) (tr : Provider) (fuel : ℕ)
    (c : List String) (idx : List ℕ) :
    process_chunk cfgOk tr (fuel + 1) c idx =
      match (translate_chunk cfgOk tr (joinLines c)).1 with
      | some t => .ok [(idx, t)] []
      | none =>
        if chunkLen c < MAX_CHUNK_SIZE then .failed []
        else
          match process_chunk cfgOk tr fuel (c.take (c.length / 2)) (idx ++ [1]) with
          | .timeout s => .timeout ((idx, chunkLen c) :: s)
          | .failed s => .failed ((idx, chunkLen c) :: s)
          | .ok o₁ s₁ =>
            match process_chunk cfgOk tr fuel (c.drop (c.length / 2)) (idx ++ [2]) with
            | .timeout s₂ => .timeout ((idx, chunkLen c) :: (s₁ ++ s₂))
            | .failed s₂ => .failed ((idx, chunkLen c) :: (s₁ ++ s₂))
            | .ok o₂ s₂ => .ok (o₁ ++ o₂) ((idx, chunkLen c) :: (s₁ ++ s₂)) := rfl

/-- A result is a timeout exactly when it carries the `timeout` marker. -/
theorem isTimeout_iff (r : PRes) : isTimeout r = true ↔ ∃ s, r = .timeout s := by
  cases r <;> simp [isTimeout]

/-- A provider that never successfully translates the empty string makes
`translate_chunk` fail on the empty string. -/
theorem translate_empty_none (cfgOk : Bool) (tr : Provider)
    (hE : ∀ n t, tr "" n = TrOut.ok t → hasNonWS t = false) :
    (translate_chunk cfgOk tr "").1 = none := by
  have hf : ∀ n, attemptFails (tr "" n) = true := by
    intro n
    cases htr : tr "" n with
    | ok t => simpa [attemptFails, Bool.not_eq_true'] using hE n t htr
    | errSize => rfl
    | errTransient => rfl
  by_cases hc : cfgOk = true
  · subst hc
    simp only [translate_chunk, if_pos rfl]
    exact translate_chunkAux_allFail tr "" hf (MAX_RETRIES + 1) 0
  · simp [translate_chunk, hc]

/-- Termination of `process_chunk` for any provider that never successfully
translates the empty chunk: recursion depth is bounded by the line count
plus one, because every bisection of a chunk with at least two lines
strictly shrinks both halves, and a single-line chunk bisects into the
empty chunk (which then fails terminally at the character floor) followed
by the chunk itself (which is then never reached). -/
theorem process_chunk_no_timeout (tr : Provider)
    (hE : ∀ n t, tr "" n = TrOut.ok t → hasNonWS t = false) :
    ∀ fuel c idx, c.length < fuel →
      isTimeout (process_chunk true tr fuel c idx) = false := by
  have hempty : (translate_chunk true tr "").1 = none := translate_empty_none true tr hE
  intro fuel
  induction fuel with
  | zero => intro c idx h; exact absurd h (Nat.not_lt_zero _)
  | succ k ih =>
    intro c idx h
    cases htr : (translate_chunk true tr (joinLines c)).1 with
    | some t => rw [process_chunk_translate_ok true tr k c idx t htr]; rfl
    | none =>
      by_cases hfl : chunkLen c < MAX_CHUNK_SIZE
      · rw [process_chunk_floor_failed true tr k c idx htr hfl]; rfl
      · have hcne : c ≠ [] := by
          intro hc; subst hc
          exact hfl (by decide)
        have hlen1 : 1 ≤ c.length := by
          cases c with
          | nil => exact absurd rfl hcne
          | cons x xs => simp
        rw [process_chunk_succ, htr]
        dsimp only
        rw [if_neg hfl]
        rcases Nat.lt_or_ge c.length 2 with h2 | h2
        · have h1 : c.length = 1 := by omega
          have hmid : c.length / 2 = 0 := by rw [h1]
          rw [hmid, List.take_zero, List.drop_zero]
          obtain ⟨k', rfl⟩ : ∃ k', k = k' + 1 := ⟨k - 1, by omega⟩
          rw [process_chunk_floor_failed true tr k' [] (idx ++ [1]) hempty (by decide)]
          rfl
        · have hlk : c.length ≤ k := by omega
          have hmidlt : c.length / 2 < c.length := Nat.div_lt_self (by omega) (by omega)
          have hL' := ih (c.take (c.length / 2)) (idx ++ [1])
            (by rw [List.length_take]; omega)
          have hR' := ih (c.drop (c.length / 2)) (idx ++ [2])
            (by rw [List.length_drop]; omega)
          cases hL : process_chunk true tr k (c.take (c.length / 2)) (idx ++ [1]) with
          | timeout s => rw [hL] at hL'; simp [isTimeout] at hL'
          | failed s => rfl
          | ok o₁ s₁ =>
            cases hR : process_chunk true tr k (c.drop (c.length / 2)) (idx ++ [2]) with
            | timeout s₂ => rw [hR] at hR'; simp [isTimeout] at hR'
            | failed s₂ => rfl
            | ok o₂ s₂ => rfl

/-- Provider behaviour exhibiting non-termination of `process_chunk`: it
accepts the empty chunk (returning the non-blank text `"X"`), and reports a
size error on everything else — in particular on the single long line that
is being processed, forever. -/
def pathologicalProvider : Provider :=
  fun s _ => if s == "" then TrOut.ok "X" else TrOut.errSize

/-- A single line of `MAX_CHUNK_SIZE` identical characters: no newline
structure, at the character floor. -/
def pathologicalChunk : List String := [String.mk (List.replicate MAX_CHUNK_SIZE 'a')]

/-- Divergence predicate: the `process_chunk` recursion exhausts every fuel
bound, i.e. the source recursion never returns. -/
def neverTerminates (tr : Provider) (c : List String) (idx : List ℕ) : Prop :=
  ∀ fuel, isTimeout (process_chunk true tr fuel c idx) = true

/-- On `pathologicalChunk`, the pathological provider drives `process_chunk`
past every fuel bound: the bisection `['', line]` re-enqueues the whole
line unchanged after the empty half succeeds. -/
theorem pathological_no_fuel_suffices :
    ∀ fuel idx, isTimeout (process_chunk true pathologicalProvider fuel pathologicalChunk idx) = true := by
  intro fuel
  induction fuel with
  | zero => intro idx; rfl
  | succ k ih =>
    intro idx
    have htr : (translate_chunk true pathologicalProvider (joinLines pathologicalChunk)).1 = none := by
      decide
    rw [process_chunk_succ, htr]
    dsimp only
    rw [if_neg (by decide : ¬ chunkLen pathologicalChunk < MAX_CHUNK_SIZE)]
    rw [show pathologicalChunk.length / 2 = 0 from rfl, List.take_zero, List.drop_zero]
    cases k with
    | zero => rfl
    | succ m =>
      have hleft : process_chunk true pathologicalProvider (m + 1) [] (idx ++ [1]) =
          .ok [(idx ++ [1], "X")] [] :=
        process_chunk_translate_ok true pathologicalProvider m [] (idx ++ [1]) "X" (by decide)
      rw [hleft]
      dsimp only
      obtain ⟨s, hs⟩ := (isTimeout_iff _).mp (ih (idx ++ [2]))
      rw [hs]
      rfl

/-- Under an identity-like provider, a successful attempt on the empty
string would have to return the empty (blank) string, which the source
treats as a failure. -/
theorem identityLike_empty (tr : Provider) (hid : identityLike tr) :
    ∀ n t, tr "" n = TrOut.ok t → hasNonWS t = false := by
  intro n t h
  rw [hid "" n t h]
  rfl

/-- Under an identity-like provider the empty chunk never processes
successfully (its only candidate translation is blank). -/
theorem process_chunk_nil_not_ok (tr : Provider) (hid : identityLike tr) :
    ∀ k idx o s, process_chunk true tr k [] idx ≠ .ok o s := by
  intro k idx o s
  cases k with
  | zero => simp [process_chunk]
  | succ m =>
    rw [process_chunk_floor_failed true tr m [] idx
      (translate_empty_none true tr (identityLike_empty tr hid)) (by decide)]
    simp

/-- Structural invariant of a successful `process_chunk` run under an
identity-like provider: the recorded outcomes are non-empty, their texts
reassemble (in recorded order) to exactly the chunk's text, every recorded
path extends the chunk's path, and the recorded paths are strictly
increasing in Python's list order. -/
theorem process_chunk_ok_inv (tr : Provider) (hid : identityLike tr) :
    ∀ fuel c idx outs s, process_chunk true tr fuel c idx = .ok outs s →
      outs ≠ [] ∧
      joinLines (outs.map Prod.snd) = joinLines c ∧
      (∀ p ∈ outs.map Prod.fst, ∃ t, p = idx ++ t) ∧
      (outs.map Prod.fst).Pairwise (fun p q => pathLt p q = true) := by
  intro fuel
  induction fuel with
  | zero => intro c idx outs s h; simp [process_chunk] at h
  | succ k ih =>
    intro c idx outs s h
    rw [process_chunk_succ] at h
    cases htr : (translate_chunk true tr (joinLines c)).1 with
    | some t =>
      rw [htr] at h
      dsimp only at h
      obtain ⟨houts, hs⟩ : [(idx, t)] = outs ∧ [] = s := by
        cases h; exact ⟨rfl, rfl⟩
      subst houts; subst hs
      obtain ⟨n, htr', hw⟩ := translate_chunk_ok true tr (joinLines c) t htr
      have hident : t = joinLines c := hid (joinLines c) n t htr'
      refine ⟨by simp, by simpa [joinLines] using hident, ?_, by simp⟩
      intro p hp
      simp at hp
      exact ⟨[], by simp [hp]⟩
    | none =>
      rw [htr] at h
      dsimp only at h
      by_cases hfl : chunkLen c < MAX_CHUNK_SIZE
      · rw [if_pos hfl] at h; cases h
      · rw [if_neg hfl] at h
        cases hL : process_chunk true tr k (c.take (c.length / 2)) (idx ++ [1]) with
        | timeout s₁ => rw [hL] at h; cases h
        | failed s₁ => rw [hL] at h; cases h
        | ok o₁ s₁ =>
          rw [hL] at h
          cases hR : process_chunk true tr k (c.drop (c.length / 2)) (idx ++ [2]) with
          | timeout s₂ => rw [hR] at h; cases h
          | failed s₂ => rw [hR] at h; cases h
          | ok o₂ s₂ =>
            rw [hR] at h
            have h' : PRes.ok (o₁ ++ o₂) ((idx, chunkLen c) :: (s₁ ++ s₂)) =
                PRes.ok outs s := h
            injection h' with houts hs
            subst houts; subst hs
            obtain ⟨hne₁, hj₁, hp₁, hsort₁⟩ := ih _ _ _ _ hL
            obtain ⟨hne₂, hj₂, hp₂, hsort₂⟩ := ih _ _ _ _ hR
            have h2 : 2 ≤ c.length := by
              by_contra hlt
              have hmid0 : c.length / 2 = 0 := by omega
              rw [hmid0, List.take_zero] at hL
              exact process_chunk_nil_not_ok tr hid k (idx ++ [1]) o₁ s₁ hL
            have htake_ne : c.take (c.length / 2) ≠ [] := by
              have : (c.take (c.length / 2)).length = c.length / 2 := by
                rw [List.length_take]; omega
              intro hnil
              rw [hnil] at this
              simp at this
              omega
            have hdrop_ne : c.drop (c.length / 2) ≠ [] := by
              have : (c.drop (c.length / 2)).length = c.length - c.length / 2 := by
                rw [List.length_drop]
              intro hnil
              rw [hnil] at this
              simp at this
              omega
            refine ⟨by simp [hne₁], ?_, ?_, ?_⟩
            · rw [List.map_append,
                joinLines_append _ _ (by simpa using hne₁) (by simpa using hne₂),
                hj₁, hj₂,
                ← joinLines_append _ _ htake_ne hdrop_ne,
                List.take_append_drop]
            · intro p hp
              rw [List.map_append, List.mem_append] at hp
              rcases hp with hp | hp
              · obtain ⟨t, ht⟩ := hp₁ p hp
                exact ⟨[1] ++ t, by simp [ht]⟩
              · obtain ⟨t, ht⟩ := hp₂ p hp
                exact ⟨[2] ++ t, by simp [ht]⟩
            · rw [List.map_append, List.pairwise_append]
              refine ⟨hsort₁, hsort₂, ?_⟩
              intro p hp q hq
              obtain ⟨t₁, ht₁⟩ := hp₁ p hp
              obtain ⟨t₂, ht₂⟩ := hp₂ q hq
              rw [ht₁, ht₂]
              have : idx ++ [1] ++ t₁ = idx ++ 1 :: t₁ := by simp
              rw [this]
              have : idx ++ [2] ++ t₂ = idx ++ 2 :: t₂ := by simp
              rw [this]
              exact pathLt_append_lt idx 1 2 t₁ t₂ (by omega)


/-- Run-level invariant: processing an enumerated list of non-empty line
groups successfully yields non-empty outcomes whose texts reassemble (in
recorded order) to the joined groups, with paths headed by the group
numbers and strictly increasing in Python's list order. -/
theorem process_chunks_enum_inv (tr : Provider) (hid : identityLike tr) (fuel : ℕ) :
    ∀ groups k outs s, (∀ g ∈ groups, g ≠ []) →
      process_chunks true tr fuel
        ((List.enumFrom k groups).map (fun p => (p.2, [p.1]))) = .ok outs s →
      (groups ≠ [] → outs ≠ []) ∧
      joinLines (outs.map Prod.snd) = joinLines groups.flatten ∧
      (∀ p ∈ outs.map Prod.fst, ∃ i t, k ≤ i ∧ p = i :: t) ∧
      (outs.map Prod.fst).Pairwise (fun p q => pathLt p q = true) := by
  intro groups
  induction groups with
  | nil =>
    intro k outs s hg h
    have h' : PRes.ok [] [] = PRes.ok outs s := h
    injection h' with houts hs
    subst houts; subst hs
    exact ⟨fun hc => absurd rfl hc, rfl, by simp, by simp⟩
  | cons g gs ih =>
    intro k outs s hg h
    rw [List.enumFrom_cons, List.map_cons] at h
    simp only [process_chunks] at h
    cases hc : process_chunk true tr fuel g [k] with
    | timeout s₁ => rw [hc] at h; cases h
    | failed s₁ => rw [hc] at h; cases h
    | ok o₁ s₁ =>
      rw [hc] at h
      dsimp only at h
      cases hrest : process_chunks true tr fuel
          ((List.enumFrom (k + 1) gs).map (fun p => (p.2, [p.1]))) with
      | timeout s₂ => rw [hrest] at h; cases h
      | failed s₂ => rw [hrest] at h; cases h
      | ok o₂ s₂ =>
        rw [hrest] at h
        have h' : PRes.ok (o₁ ++ o₂) (s₁ ++ s₂) = PRes.ok outs s := h
        injection h' with houts hs
        subst houts; subst hs
        obtain ⟨hne₁, hj₁, hp₁, hsort₁⟩ := process_chunk_ok_inv tr hid fuel g [k] o₁ s₁ hc
        obtain ⟨hne₂c, hj₂, hp₂, hsort₂⟩ :=
          ih (k + 1) o₂ s₂ (fun g' hg' => hg g' (List.mem_cons_of_mem g hg')) hrest
        refine ⟨fun _ => by simp [List.append_eq_nil, hne₁], ?_, ?_, ?_⟩
        · rw [List.map_append]
          cases gs with
          | nil =>
            have ho₂ : o₂ = [] := by
              have h'' : PRes.ok [] [] = PRes.ok o₂ s₂ := hrest
              injection h'' with ho _
              exact ho.symm
            subst ho₂
            simpa using hj₁
          | cons g' gs' =>
            have hne₂ : o₂ ≠ [] := hne₂c (by simp)
            have hgne : g ≠ [] := hg g (by simp)
            have hflne : (g' :: gs').flatten ≠ [] := by
              have hg' : g' ≠ [] := hg g' (by simp)
              simp only [List.flatten_cons]
              simp [List.append_eq_nil, hg']
            rw [joinLines_append _ _ (by simpa using hne₁) (by simpa using hne₂),
              hj₁, hj₂,
              show (g :: g' :: gs').flatten = g ++ (g' :: gs').flatten from rfl,
              joinLines_append g (g' :: gs').flatten hgne hflne]
        · intro p hp
          rw [List.map_append, List.mem_append] at hp
          rcases hp with hp | hp
          · obtain ⟨t, ht⟩ := hp₁ p hp
            exact ⟨k, t, le_refl k, by simpa using ht⟩
          · obtain ⟨i, t, hki, ht⟩ := hp₂ p hp
            exact ⟨i, t, by omega, ht⟩
        · rw [List.map_append, List.pairwise_append]
          refine ⟨hsort₁, hsort₂, ?_⟩
          intro p hp q hq
          obtain ⟨t₁, ht₁⟩ := hp₁ p hp
          obtain ⟨i, t₂, hki, ht₂⟩ := hp₂ q hq
          rw [ht₁, ht₂]
          have hpk : ([k] : List ℕ) ++ t₁ = k :: t₁ := by simp
          rw [hpk]
          simpa using pathLt_append_lt [] k i t₁ t₂ (by omega)

/-- Provider that reports a size-exceeded error on every attempt. -/
def alwaysSizeError : Provider := fun _ _ => TrOut.errSize

/-- Provider that reports a transient transport error on every attempt. -/
def alwaysTransientError : Provider := fun _ _ => TrOut.errTransient

/-- The identity provider: every attempt succeeds and returns the submitted
text unchanged. -/
def identityProvider : Provider := fun s _ => TrOut.ok s

/-- C3: for every document (given by its line list), every initial group
size, and every split tree (arising from any identity-like provider
behaviour — attempts may fail arbitrarily, forcing arbitrary bisections),
a successful run reassembles the leaf outcomes — sorted by lexicographic
path comparison and joined with newlines — to exactly the original
document content. -/
theorem c3_reassemble_identity (tr : Provider) (n fuel : ℕ) (ls : List String)
    (outs : List (List ℕ × String)) (s : List (List ℕ × ℕ))
    (hid : identityLike tr) (hn : 0 < n)
    (hrun : process_chunks true tr fuel (split_content n ls) = .ok outs s) :
    reassemble outs = joinLines ls := by
  have hgne : ∀ g ∈ groupLines n ls, g ≠ [] :=
    fun g hgm => groupLinesAux_ne_nil n hn ls.length ls g hgm
  have hrun' : process_chunks true tr fuel
      ((List.enumFrom 1 (groupLines n ls)).map (fun p => (p.2, [p.1]))) = .ok outs s := hrun
  obtain ⟨_, hj, _, hsort⟩ :=
    process_chunks_enum_inv tr hid fuel (groupLines n ls) 1 outs s hgne hrun'
  have hsorted : outs.Pairwise (fun a b => pathLe a.1 b.1 = true) := by
    have hlt := (List.pairwise_map).mp hsort
    exact hlt.imp (fun hab => pathLe_of_pathLt _ _ hab)
  rw [reassemble, sortOuts_of_sorted outs hsorted, hj]
  exact congrArg joinLines
    (by simpa [groupLines] using groupLinesAux_flatten n hn ls.length ls (le_refl _))

/-- Witness for C3: a 3-line document, group size 2, the always-succeeding
identity provider; the reassembled output is the original document. -/
theorem c3_reassemble_identity_witness :
    identityLike (fun s _ => TrOut.ok s) ∧ 0 < 2 ∧
    process_chunks true (fun s _ => TrOut.ok s) 1 (split_content 2 ["ab", "cd", "ef"]) =
      .ok [([1], "ab\ncd"), ([2], "ef")] [] ∧
    reassemble [([1], "ab\ncd"), ([2], "ef")] = joinLines ["ab", "cd", "ef"] := by
  have hid : identityLike (fun s _ => TrOut.ok s) := by
    intro s n t h
    cases h
    rfl
  have hrun : process_chunks true (fun s _ => TrOut.ok s) 1
      (split_content 2 ["ab", "cd", "ef"]) = .ok [([1], "ab\ncd"), ([2], "ef")] [] := by
    decide
  exact ⟨hid, by decide, hrun,
    c3_reassemble_identity (fun s _ => TrOut.ok s) 2 1 ["ab", "cd", "ef"] _ _ hid
      (by decide) hrun⟩

/-- C4: (i) a bisection is recorded only for chunks of character length at
least `MAX_CHUNK_SIZE` — no chunk below the floor is ever bisected — and
(ii) once the chunk loop fails on a prefix of the chunks, the remaining
sibling chunks are never attempted: the run's result is that of the prefix
alone (terminal failure for the whole document). -/
theorem c4_floor_respected_and_terminal (cfgOk : Bool) (tr : Provider) :
    (∀ fuel c idx, ∀ e ∈ splitsOf (process_chunk cfgOk tr fuel c idx),
      MAX_CHUNK_SIZE ≤ e.2) ∧
    (∀ fuel l₁ l₂ s, process_chunks cfgOk tr fuel l₁ = .failed s →
      process_chunks cfgOk tr fuel (l₁ ++ l₂) = .failed s) :=
  ⟨splits_ge_floor cfgOk tr, process_chunks_failed_append cfgOk tr⟩

/-- Witness for C4: a two-line chunk of 601 characters is bisected (recorded
with its length, which is at least the floor), and a failed single-chunk
prefix makes the appended sibling list irrelevant. -/
theorem c4_floor_respected_and_terminal_witness :
    (([1], 601) ∈ splitsOf (process_chunk true (fun _ _ => TrOut.errSize) 2
        [String.mk (List.replicate 300 'a'), String.mk (List.replicate 300 'b')] [1]) ∧
      MAX_CHUNK_SIZE ≤ 601) ∧
    (process_chunks true (fun _ _ => TrOut.errSize) 1 [(["x"], [1])] = .failed [] ∧
      process_chunks true (fun _ _ => TrOut.errSize) 1
        ([(["x"], [1])] ++ [(["y"], [2])]) = .failed []) := by
  have hmem : ([1], 601) ∈ splitsOf (process_chunk true (fun _ _ => TrOut.errSize) 2
      [String.mk (List.replicate 300 'a'), String.mk (List.replicate 300 'b')] [1]) := by
    decide
  have hfail : process_chunks true (fun _ _ => TrOut.errSize) 1 [(["x"], [1])] =
      .failed [] := by decide
  exact ⟨⟨hmem,
      (c4_floor_respected_and_terminal true (fun _ _ => TrOut.errSize)).1 2 _ [1] _ hmem⟩,
    ⟨hfail,
      (c4_floor_respected_and_terminal true (fun _ _ => TrOut.errSize)).2 1 _ _ [] hfail⟩⟩

/-- C2 counterexample: a provider that reports a size-exceeded error on
every attempt; the source re-submits the very same text at
`retry_count = 0..5` — six verbatim submissions — before giving up, so a
size failure does not immediately trigger bisection and is retried
verbatim like any transient error. -/
theorem c2_counterexample :
    translate_chunk true (fun _ _ => TrOut.errSize) "abc" =
      (none, [("abc", 0), ("abc", 1), ("abc", 2), ("abc", 3), ("abc", 4), ("abc", 5)]) := by
  decide

/-- C2 amended: a size-exceeded error is handled exactly like a transient
error: the chunk is re-submitted verbatim `MAX_RETRIES + 1` times; only
after all attempts fail does `process_chunk` bisect the chunk (when at or
above the character floor) or fail terminally (when below it). -/
theorem c2_amended_size_error_retried_then_bisected (tr : Provider)
    (c : List String) (idx : List ℕ) (fuel : ℕ)
    (hf : ∀ n, attemptFails (tr (joinLines c) n) = true) :
    translate_chunk true tr (joinLines c) =
      (none, (List.range (MAX_RETRIES + 1)).map (fun i => (joinLines c, i))) ∧
    (chunkLen c < MAX_CHUNK_SIZE → process_chunk true tr (fuel + 1) c idx = .failed []) ∧
    (MAX_CHUNK_SIZE ≤ chunkLen c →
      (idx, chunkLen c) ∈ splitsOf (process_chunk true tr (fuel + 1) c idx)) := by
  have htr := translate_chunk_allFail tr (joinLines c) hf
  have h1 : (translate_chunk true tr (joinLines c)).1 = none := by rw [htr]
  exact ⟨htr,
    fun hlt => process_chunk_floor_failed true tr fuel c idx h1 hlt,
    fun hge => process_chunk_bisect_mem true tr fuel c idx h1 (not_lt.mpr hge)⟩

/-- Witness for C2: a single 600-character line with an always-size-error
provider: six verbatim submissions, then bisection is recorded. -/
theorem c2_amended_size_error_retried_then_bisected_witness :
    (∀ n, attemptFails (alwaysSizeError
        (joinLines [String.mk (List.replicate 600 'a')]) n) = true) ∧
    (translate_chunk true alwaysSizeError
        (joinLines [String.mk (List.replicate 600 'a')]) =
      (none, (List.range (MAX_RETRIES + 1)).map
        (fun i => (joinLines [String.mk (List.replicate 600 'a')], i))) ∧
    (chunkLen [String.mk (List.replicate 600 'a')] < MAX_CHUNK_SIZE →
      process_chunk true alwaysSizeError 1
        [String.mk (List.replicate 600 'a')] [2] = .failed []) ∧
    (MAX_CHUNK_SIZE ≤ chunkLen [String.mk (List.replicate 600 'a')] →
      ([2], chunkLen [String.mk (List.replicate 600 'a')]) ∈
        splitsOf (process_chunk true alwaysSizeError 1
          [String.mk (List.replicate 600 'a')] [2]))) := by
  have hf : ∀ n, attemptFails (alwaysSizeError
      (joinLines [String.mk (List.replicate 600 'a')]) n) = true := fun _ => rfl
  exact ⟨hf, c2_amended_size_error_retried_then_bisected
    alwaysSizeError [String.mk (List.replicate 600 'a')] [2] 0 hf⟩

/-- C1 amended: `process_chunk` terminates — within recursion depth
bounded by the chunk's line count plus one — for every provider behaviour
that never returns a successful (non-blank) translation of the empty
chunk.  (The counterexample below shows the unconditional claim false: with
a provider that accepts the empty string, a single long line with no
newline recurses forever, so the character floor alone does not guarantee
termination.) -/
theorem c1_amended_termination (tr : Provider)
    (hE : ∀ n t, tr "" n = TrOut.ok t → hasNonWS t = false)
    (fuel : ℕ) (c : List String) (idx : List ℕ) (h : c.length < fuel) :
    isTimeout (process_chunk true tr fuel c idx) = false :=
  process_chunk_no_timeout tr hE fuel c idx h

/-- Witness for C1: an always-transient-error provider on a one-line chunk
terminates within fuel 2. -/
theorem c1_amended_termination_witness :
    (∀ n t, alwaysTransientError "" n = TrOut.ok t → hasNonWS t = false) ∧
    isTimeout (process_chunk true alwaysTransientError 2 ["a"] [1]) = false := by
  have hE : ∀ n t, alwaysTransientError "" n = TrOut.ok t →
      hasNonWS t = false := by
    intro n t h
    exact absurd h (by simp [alwaysTransientError])
  exact ⟨hE, c1_amended_termination alwaysTransientError hE 2 ["a"] [1]
    (by decide)⟩

/-- C1 counterexample: the claim's unconditional termination is false.  On
the single 500-character line with no newline, a provider that accepts the
empty chunk but reports a size error on the line itself drives
`process_chunk` past every fuel bound: the bisection of the single line is
`['', line]`, the empty half succeeds, and the right half is the unchanged
line again. -/
theorem c1_counterexample_nontermination :
    neverTerminates pathologicalProvider pathologicalChunk [1] :=
  fun fuel => pathological_no_fuel_suffices fuel [1]

/-- Exact characterisation of rejection: the validator returns `False` iff
the non-empty line counts differ, the line difference exceeds both
`max(1, int(0.1 * original))` and the absolute cap of 15, and the character
difference exceeds `int(0.1 * original_chars)`. -/
theorem validate_counts_false_iff (o t oc tc : ℕ) :
    validate_counts o t oc tc = false ↔
      (o ≠ t ∧ max 1 (o / 10) < ((t : ℤ) - (o : ℤ)).natAbs ∧
        15 < ((t : ℤ) - (o : ℤ)).natAbs ∧
        oc / 10 < ((tc : ℤ) - (oc : ℤ)).natAbs) := by
  by_cases h1 : o = t
  · subst h1; simp [validate_counts]
  · by_cases hA : max 1 (o / 10) < ((t : ℤ) - (o : ℤ)).natAbs
    · by_cases hB : 15 < ((t : ℤ) - (o : ℤ)).natAbs
      · by_cases hoc : oc = tc
        · subst hoc; simp [validate_counts, h1, hA, hB]
        · by_cases hcd : oc / 10 < ((tc : ℤ) - (oc : ℤ)).natAbs
          · simp [validate_counts, h1, hA, hB, hoc, hcd]
          · simp [validate_counts, h1, hA, hB, hoc, hcd]
      · simp [validate_counts, h1, hA, hB]
    · simp [validate_counts, h1, hA]

/-- String-level projection of `validate_counts_false_iff`. -/
theorem validate_completion_false_iff (original translated : String) :
    validate_completion original translated = false ↔
      (nonEmptyLineCount original ≠ nonEmptyLineCount translated ∧
        max 1 (nonEmptyLineCount original / 10) <
          ((nonEmptyLineCount translated : ℤ) - (nonEmptyLineCount original : ℤ)).natAbs ∧
        15 < ((nonEmptyLineCount translated : ℤ) - (nonEmptyLineCount original : ℤ)).natAbs ∧
        original.length / 10 < ((translated.length : ℤ) - (original.length : ℤ)).natAbs) :=
  validate_counts_false_iff (nonEmptyLineCount original) (nonEmptyLineCount translated)
    original.length translated.length

/-- C5 amended: when the non-empty line counts differ, the validator
accepts from the line-count check exactly when the absolute difference is
within `max(1, int(0.1 * original))` — integer truncation, not rounding —
or within the absolute cap of 15 lines; only otherwise does acceptance
reduce to the character-count fallback (within `int(0.1 *
original_chars)`, inclusively). -/
theorem c5_amended_line_tolerance (original translated : String)
    (hne : nonEmptyLineCount original ≠ nonEmptyLineCount translated) :
    ((((nonEmptyLineCount translated : ℤ) - (nonEmptyLineCount original : ℤ)).natAbs ≤
        max 1 (nonEmptyLineCount original / 10) ∨
      ((nonEmptyLineCount translated : ℤ) - (nonEmptyLineCount original : ℤ)).natAbs ≤ 15) →
      validate_completion original translated = true) ∧
    (max 1 (nonEmptyLineCount original / 10) <
        ((nonEmptyLineCount translated : ℤ) - (nonEmptyLineCount original : ℤ)).natAbs →
      15 < ((nonEmptyLineCount translated : ℤ) - (nonEmptyLineCount original : ℤ)).natAbs →
      (validate_completion original translated = true ↔
        ((translated.length : ℤ) - (original.length : ℤ)).natAbs ≤ original.length / 10)) := by
  have hiff := validate_completion_false_iff original translated
  constructor
  · intro hle
    cases hv : validate_completion original translated with
    | true => rfl
    | false =>
      obtain ⟨_, hA, hB, _⟩ := hiff.mp hv
      omega
  · intro hA hB
    constructor
    · intro htrue
      by_contra hgt
      have hv : validate_completion original translated = false :=
        hiff.mpr ⟨hne, hA, hB, by omega⟩
      rw [htrue] at hv
      cases hv
    · intro hle
      cases hv : validate_completion original translated with
      | true => rfl
      | false =>
        obtain ⟨_, _, _, hcd⟩ := hiff.mp hv
        omega

/-- Witness for C5: original of 2 non-empty lines versus 3; the difference
1 is within the tolerance, so the validator accepts. -/
theorem c5_amended_line_tolerance_witness :
    nonEmptyLineCount "a\nb" ≠ nonEmptyLineCount "a\nb\nc" ∧
    validate_completion "a\nb" "a\nb\nc" = true := by
  have hne : nonEmptyLineCount "a\nb" ≠ nonEmptyLineCount "a\nb\nc" := by decide
  exact ⟨hne, (c5_amended_line_tolerance "a\nb" "a\nb\nc" hne).1 (by decide)⟩

/-- C5 counterexample: with 155 original non-empty lines and 171 translated
ones (difference 16), the specification's tolerance
`max(1, round(0.10 * 155)) = 16` accepts at the line stage, but the source
(which truncates: `max(1, int(0.1 * 155)) = 15`, and `16 > 15` also exceeds
the cap) falls through to the character comparison and rejects the
document. -/
theorem c5_counterexample :
    validate_completion (joinLines (List.replicate 155 "a"))
      (joinLines (List.replicate 171 "a")) = false ∧
    nonEmptyLineCount (joinLines (List.replicate 155 "a")) = 155 ∧
    nonEmptyLineCount (joinLines (List.replicate 171 "a")) = 171 ∧
    ((171 : ℤ) - 155 ≤ specLineTolerance 155) := by
  refine ⟨by decide, by decide, by decide, ?_⟩
  norm_num [specLineTolerance, round_eq]

/-- C6 amended: the validator accepts whenever the non-empty line counts
match; it rejects exactly when the line difference exceeds both the 10%
line tolerance and the 15-line absolute cap and the character difference
exceeds 10% of the original character count; in particular a character
difference of exactly `int(0.1 * original_chars)` (the inclusive boundary)
is always accepted. -/
theorem c6_amended_validator_boundary (original translated : String) :
    (nonEmptyLineCount original = nonEmptyLineCount translated →
      validate_completion original translated = true) ∧
    (validate_completion original translated = false ↔
      (nonEmptyLineCount original ≠ nonEmptyLineCount translated ∧
        max 1 (nonEmptyLineCount original / 10) <
          ((nonEmptyLineCount translated : ℤ) - (nonEmptyLineCount original : ℤ)).natAbs ∧
        15 < ((nonEmptyLineCount translated : ℤ) - (nonEmptyLineCount original : ℤ)).natAbs ∧
        original.length / 10 < ((translated.length : ℤ) - (original.length : ℤ)).natAbs)) ∧
    (((translated.length : ℤ) - (original.length : ℤ)).natAbs ≤ original.length / 10 →
      validate_completion original translated = true) := by
  have hiff := validate_completion_false_iff original translated
  refine ⟨?_, hiff, ?_⟩
  · intro heq
    cases hv : validate_completion original translated with
    | true => rfl
    | false => exact absurd heq (hiff.mp hv).1
  · intro hle
    cases hv : validate_completion original translated with
    | true => rfl
    | false =>
      obtain ⟨_, _, _, hcd⟩ := hiff.mp hv
      omega

/-- Witness for C6: equal non-empty line counts are accepted, and a
character difference exactly at the 10% boundary is accepted. -/
theorem c6_amended_validator_boundary_witness :
    nonEmptyLineCount "ab" = nonEmptyLineCount "xy" ∧
    validate_completion "ab" "xy" = true := by
  exact ⟨by decide, (c6_amended_validator_boundary "ab" "xy").1 (by decide)⟩

/-- C6 counterexample: 10 original lines versus 12 (20% line deviation) and
49 versus 107 characters (more than 100% character deviation) — the claim
demands rejection, but the source accepts because the 2-line difference is
within the 15-line absolute cap. -/
theorem c6_counterexample :
    validate_completion (joinLines (List.replicate 10 "aaaa"))
      (joinLines (List.replicate 12 "aaaaaaaa")) = true ∧
    nonEmptyLineCount (joinLines (List.replicate 10 "aaaa")) = 10 ∧
    nonEmptyLineCount (joinLines (List.replicate 12 "aaaaaaaa")) = 12 ∧
    (joinLines (List.replicate 10 "aaaa")).length = 49 ∧
    (joinLines (List.replicate 12 "aaaaaaaa")).length = 107 ∧
    10 * (12 - 10) > 10 ∧ 10 * (107 - 49) > 49 := by
  exact ⟨by decide, by decide, by decide, by decide, by decide, by decide, by decide⟩

/-- Ceiling-division step: one group of `n` lines peels off the front. -/
theorem ceilDiv_succ_step (len n : ℕ) (hn : 0 < n) (hl : 0 < len) :
    (len + n - 1) / n = ((len - n) + n - 1) / n + 1 := by
  rcases le_or_lt len n with hle | hlt
  · have h0 : len - n = 0 := by omega
    have h1 : (len + n - 1) / n = 1 := Nat.div_eq_of_lt_le (by omega) (by omega)
    have h2 : (0 + n - 1) / n = 0 := Nat.div_eq_of_lt (by omega)
    rw [h0, h1, h2]
  · have hsplit : len + n - 1 = ((len - n) + n - 1) + n := by omega
    rw [hsplit, Nat.add_div_right _ hn]

/-- Closed form of the grouping: group `i` (0-based) is `lines[i*n : i*n+n]`,
and there are `⌈len/n⌉` groups. -/
theorem groupLinesAux_closed (n : ℕ) (hn : 0 < n) :
    ∀ bound ls, ls.length ≤ bound →
      groupLinesAux n bound ls =
        (List.range ((ls.length + n - 1) / n)).map
          (fun i => (ls.drop (i * n)).take n) := by
  intro bound
  induction bound with
  | zero =>
    intro ls h
    have hnil : ls = [] := List.eq_nil_of_length_eq_zero (by omega)
    subst hnil
    have h0 : (n - 1) / n = 0 := Nat.div_eq_of_lt (by omega)
    simp [groupLinesAux, h0]
  | succ b ih =>
    intro ls h
    cases ls with
    | nil =>
      have h0 : (n - 1) / n = 0 := Nat.div_eq_of_lt (by omega)
      simp [groupLinesAux, h0]
    | cons x xs =>
      have hlen : ((x :: xs).drop n).length ≤ b := by
        rw [List.length_drop]
        simp only [List.length_cons] at h ⊢
        omega
      have hstep : ((x :: xs).length + n - 1) / n =
          (((x :: xs).drop n).length + n - 1) / n + 1 := by
        rw [List.length_drop]
        exact ceilDiv_succ_step (x :: xs).length n hn (by simp)
      rw [show groupLinesAux n (b + 1) (x :: xs) =
          (x :: xs).take n :: groupLinesAux n b ((x :: xs).drop n) from rfl,
        ih _ hlen, hstep,
        range_map_cons (fun i => ((x :: xs).drop (i * n)).take n) _]
      refine congrArg₂ List.cons (by simp) (List.map_congr_left ?_)
      intro i _
      rw [List.drop_drop]
      congr 2
      ring

/-- Enumerating a mapped range from `k` and packaging each entry with its
singleton path. -/
theorem enumFrom_paths_range {α : Type} :
    ∀ (m : ℕ) (g : ℕ → α) (k : ℕ),
      (List.enumFrom k ((List.range m).map g)).map (fun p => (p.2, [p.1])) =
        (List.range m).map (fun i => (g i, [k + i])) := by
  intro m
  induction m with
  | zero => intro g k; rfl
  | succ m' ih =>
    intro g k
    rw [range_map_cons g m', List.enumFrom_cons, List.map_cons,
      ih (fun i => g (i + 1)) (k + 1),
      range_map_cons (fun i => (g i, [k + i])) m']
    refine congrArg₂ List.cons (by simp) (List.map_congr_left ?_)
    intro i _
    have hk : k + 1 + i = k + (i + 1) := by omega
    rw [hk]

/-- Closed form of `split_content`: chunk `i` (1-based) is the consecutive
slice `lines[(i-1)*n : i*n]` with path `[i]`, and there are `⌈len/n⌉`
chunks (the last possibly shorter). -/
theorem split_content_eq (n : ℕ) (hn : 0 < n) (ls : List String) :
    split_content n ls =
      (List.range ((ls.length + n - 1) / n)).map
        (fun i => ((ls.drop (i * n)).take n, [i + 1])) := by
  rw [split_content, groupLines, groupLinesAux_closed n hn ls.length ls (le_refl _),
    enumFrom_paths_range ((ls.length + n - 1) / n) (fun i => (ls.drop (i * n)).take n) 1]
  refine List.map_congr_left ?_
  intro i _
  have hk : 1 + i = i + 1 := by omega
  rw [hk]

/-- C7 amended: `split_content` with group size `n` cuts the document into
consecutive groups of `n` lines (the last possibly shorter), chunk `i`
(1-based) receiving path `[i]`; the default `INITIAL_CHUNK_LINES` is `50`
(not 100), and with group size 100 a 250-line document yields exactly the
three chunks with paths `[1], [2], [3]`. -/
theorem c7_amended_initial_split (n : ℕ) (hn : 0 < n) (ls : List String) :
    split_content n ls =
      (List.range ((ls.length + n - 1) / n)).map
        (fun i => ((ls.drop (i * n)).take n, [i + 1])) ∧
    INITIAL_CHUNK_LINES = 50 ∧
    (split_content 100 (List.replicate 250 "a")).map Prod.snd = [[1], [2], [3]] :=
  ⟨split_content_eq n hn ls, rfl, by decide⟩

/-- Witness for C7 at group size 2 on a 3-line document. -/
theorem c7_amended_initial_split_witness :
    0 < 2 ∧
    (split_content 2 ["a", "b", "c"] =
      (List.range ((["a", "b", "c"].length + 2 - 1) / 2)).map
        (fun i => ((["a", "b", "c"].drop (i * 2)).take 2, [i + 1])) ∧
    INITIAL_CHUNK_LINES = 50 ∧
    (split_content 100 (List.replicate 250 "a")).map Prod.snd = [[1], [2], [3]]) :=
  ⟨by decide, c7_amended_initial_split 2 (by decide) ["a", "b", "c"]⟩

/-- C7 counterexample: the default group size is 50, not 100, so a 250-line
document is split into 5 initial chunks under the default, not 3. -/
theorem c7_counterexample :
    INITIAL_CHUNK_LINES ≠ 100 ∧
    (split_content INITIAL_CHUNK_LINES (List.replicate 250 "a")).length = 5 :=
  ⟨by decide, by decide⟩

/-- C8 counterexample: the empty document (whose line list is `[""]`, since
`''.split('\n') == ['']`) yields one chunk — the empty chunk with path
`[1]` — not zero chunks. -/
theorem c8_counterexample :
    split_content INITIAL_CHUNK_LINES [""] = [([""], [1])] ∧
    (split_content INITIAL_CHUNK_LINES [""]).length = 1 :=
  ⟨by decide, by decide⟩

/-- C8 amended: `split_content` on the empty document yields exactly one
chunk (the empty chunk, path `[1]`), and the pipeline does not treat the
empty document as trivially validated: the empty chunk is submitted to the
provider like any other, and with any provider that never returns a
non-blank translation for the empty text the whole run fails. -/
theorem c8_amended_empty_document (tr : Provider) (fuel : ℕ)
    (hE : ∀ n t, tr "" n = TrOut.ok t → hasNonWS t = false) :
    split_content INITIAL_CHUNK_LINES [""] = [([""], [1])] ∧
    process_file true tr (fuel + 1) [""] = none := by
  refine ⟨by decide, ?_⟩
  have hpc : process_chunk true tr (fuel + 1) [""] [1] = .failed [] :=
    process_chunk_floor_failed true tr fuel [""] [1]
      (translate_empty_none true tr hE) (by decide)
  rw [process_file,
    show split_content INITIAL_CHUNK_LINES [""] = [([""], [1])] from by decide]
  simp only [process_chunks]
  rw [hpc]

/-- Witness for C8 with the always-transient-error provider. -/
theorem c8_amended_empty_document_witness :
    (∀ n t, alwaysTransientError "" n = TrOut.ok t → hasNonWS t = false) ∧
    (split_content INITIAL_CHUNK_LINES [""] = [([""], [1])] ∧
      process_file true alwaysTransientError 1 [""] = none) := by
  have hE : ∀ n t, alwaysTransientError "" n = TrOut.ok t → hasNonWS t = false := by
    intro n t h
    exact absurd h (by simp [alwaysTransientError])
  exact ⟨hE, c8_amended_empty_document alwaysTransientError 0 hE⟩

/-- C9 counterexample: when `llm.run` reports no error indicator
(`html_rtn is None`) and returns text, `call_llm` records success
immediately — even for a 5-character response to a 201-character input —
because the success branch precedes the short-response check; likewise the
main pipeline's `translate_chunk` (translate.py), which has no
short-response heuristic at all, returns the short text as a success. -/
theorem c9_counterexample :
    call_llm (fun _ => LlmRet.ret none (some "short"))
      (String.mk (List.replicate 201 'a')) = (none, some "short") ∧
    200 < (String.mk (List.replicate 201 'a')).length ∧
    "short".length < 200 ∧
    (translate_chunk true (fun _ _ => TrOut.ok "short")
      (String.mk (List.replicate 201 'a'))).1 = some "short" :=
  ⟨by decide, by decide, by decide, by decide⟩

/-- C9 amended: the short-response heuristic of `call_llm` fires only when
the call also returns a non-`None` html error indicator: in that case an
under-200-character text for an over-200-character input is classified
`CONNECTION_ERROR` (a transient, retried outcome), not recorded as success;
but with no error indicator (`html_rtn is None`, any non-`None` text) the
response is recorded as a success regardless of the two lengths. -/
theorem c9_amended_short_response (run : String → LlmRet) (text tx : String) :
    (∀ h, run text = LlmRet.ret (some h) (some tx) → tx.length < 200 →
      200 < text.length → call_llm run text = (some "CONNECTION_ERROR", none)) ∧
    (run text = LlmRet.ret none (some tx) → call_llm run text = (none, some tx)) := by
  constructor
  · intro h hrun hlen1 hlen2
    rw [call_llm, hrun]
    simp [hlen1, hlen2]
  · intro hrun
    rw [call_llm, hrun]

/-- Witness for C9: a one-character response with an html error indicator
present, for a 201-character input, is classified `CONNECTION_ERROR`. -/
theorem c9_amended_short_response_witness :
    ((fun _ => LlmRet.ret (some "err") (some "s")) (String.mk (List.replicate 201 'a')) =
      LlmRet.ret (some "err") (some "s")) ∧
    "s".length < 200 ∧ 200 < (String.mk (List.replicate 201 'a')).length ∧
    call_llm (fun _ => LlmRet.ret (some "err") (some "s"))
      (String.mk (List.replicate 201 'a')) = (some "CONNECTION_ERROR", none) :=
  ⟨rfl, by decide, by decide,
    (c9_amended_short_response (fun _ => LlmRet.ret (some "err") (some "s"))
      (String.mk (List.replicate 201 'a')) "s").1 "err" rfl (by decide) (by decide)⟩

/-- C10: `parse_filename` (hence constructing `TranslationProcessor`)
succeeds exactly when the filename stem has at least three
`'-'`-separated components — it is a pure function of the filename alone,
evaluated in `__init__` before any file read or provider call — and the
zero-padded output filename is computed from the integer value of the
third component, independently of the `index` field of the input JSON
record. -/
theorem c10_parse_filename_output_index (f : String) (j j' : ℤ) :
    ((parse_filename f).isSome ↔ 3 ≤ (splitDash (stemOf f)).length) ∧
    generated_filename f j = generated_filename f j' ∧
    (∀ p0 p1 p2, parse_filename f = some (p0, p1, p2) →
      ∀ m, strToNat? p2 = some m →
        generated_filename f j = some (pad4 m ++ ".html")) := by
  refine ⟨?_, rfl, ?_⟩
  · rcases hs : splitDash (stemOf f) with _ | ⟨a, _ | ⟨b, _ | ⟨c, rest⟩⟩⟩ <;>
      simp [parse_filename, hs]
  · intro p0 p1 p2 hparse m hm
    rw [generated_filename, hparse]
    dsimp only
    rw [hm]
    rfl

/-- Witness for C10 on the test-suite filename
`test_source-TestBook-0001.json`: parsing succeeds (three components), the
JSON `index` value is irrelevant, and the output name is `0001.html`. -/
theorem c10_parse_filename_output_index_witness :
    ((parse_filename "test_source-TestBook-0001.json").isSome ↔
      3 ≤ (splitDash (stemOf "test_source-TestBook-0001.json")).length) ∧
    parse_filename "test_source-TestBook-0001.json" =
      some ("test_source", "TestBook", "0001") ∧
    strToNat? "0001" = some 1 ∧
    generated_filename "test_source-TestBook-0001.json" 7 = some (pad4 1 ++ ".html") ∧
    generated_filename "test_source-TestBook-0001.json" 7 =
      generated_filename "test_source-TestBook-0001.json" 99 ∧
    parse_filename "ab-cd.json" = none := by
  have hp : parse_filename "test_source-TestBook-0001.json" =
      some ("test_source", "TestBook", "0001") := by decide
  have hm : strToNat? "0001" = some 1 := by decide
  exact ⟨(c10_parse_filename_output_index "test_source-TestBook-0001.json" 7 99).1,
    hp, hm,
    (c10_parse_filename_output_index "test_source-TestBook-0001.json" 7 99).2.2
      "test_source" "TestBook" "0001" hp 1 hm,
    (c10_parse_filename_output_index "test_source-TestBook-0001.json" 7 99).2.1,
    by decide⟩
